import Mathlib

/-!
Shallow embedding of the spherical-statistics core of `mplstereonet`
(`stereonet_math.py`, `analysis.py`, `contouring.py`) over the exact reals.

Conventions of the embedding:
* numpy floating-point arithmetic is modelled by `ℝ`;
* a computation that in IEEE floats produces a NaN/Inf component (the only
  such place in the modelled code is the division `z / r` with `r = 0` in
  `cart2sph`) is modelled by an `Option`-valued result, `none` standing for
  a non-finite output;
* numpy 1-D arrays are modelled by `List ℝ`, elementwise (vectorized)
  operations by `List.map` / `List.zipWith`.
-/

namespace Mplstereonet

open Real

/-- `np.degrees`: radians to degrees. -/
noncomputable def degrees (t : ℝ) : ℝ := t * 180 / Real.pi

/-- `np.radians`: degrees to radians. -/
noncomputable def radians (d : ℝ) : ℝ := d * Real.pi / 180

/-- `np.arctan2(y, x)`: the angle of the point `(x, y)` in `(-π, π]`, with
`arctan2 0 0 = 0`, exactly the mathematical function computed by numpy's
`arctan2` on non-NaN inputs.  Embedded as the argument of the complex number
`x + y·i`, which Mathlib defines by the same case split on quadrants. -/
noncomputable def arctan2 (y x : ℝ) : ℝ := Complex.arg ⟨x, y⟩

/-- `sph2cart` (stereonet_math.py, lines 28-48): longitude/latitude in
radians to cartesian coordinates `(x, y, z)`. -/
noncomputable def sph2cart (lon lat : ℝ) : ℝ × ℝ × ℝ :=
  (Real.cos lat * Real.cos lon, Real.cos lat * Real.sin lon, Real.sin lat)

/-- `cart2sph` (stereonet_math.py, lines 50-68): cartesian coordinates to
`(lon, lat)` in radians.  `r = sqrt(x²+y²+z²)`; `lat = arcsin(z/r)`;
`lon = arctan2(y, x)`.  There is no guard on `r`: when `r = 0` the float
code computes `0/0 = NaN` and `arcsin NaN = NaN` for the latitude, which
the embedding records as `none` (a non-finite result). -/
noncomputable def cart2sph (x y z : ℝ) : Option (ℝ × ℝ) :=
  let r := Real.sqrt (x ^ 2 + y ^ 2 + z ^ 2)
  if r = 0 then none else some (arctan2 y x, Real.arcsin (z / r))

/-- `_rotate_x` (stereonet_math.py, lines 91-95). -/
noncomputable def rotateX (x y z theta : ℝ) : ℝ × ℝ × ℝ :=
  (x, y * Real.cos theta + z * Real.sin theta,
   -y * Real.sin theta + z * Real.cos theta)

/-- `_rotate(lon, lat, theta, axis='x')` (stereonet_math.py, lines 70-89):
degree inputs, radian outputs; converts to cartesian, rotates about the
x-axis, converts back.  Only the `axis='x'` entry of the source's lookup
dict is exercised by the functions the claims are about. -/
noncomputable def rotate (lon lat theta : ℝ) : Option (ℝ × ℝ) :=
  let l := radians lon
  let b := radians lat
  let t := radians theta
  let v := sph2cart l b
  let w := rotateX v.1 v.2.1 v.2.2 t
  cart2sph w.1 w.2.1 w.2.2

/-- `antipode` (stereonet_math.py, lines 109-128): negate the cartesian
vector and convert back to spherical coordinates. -/
noncomputable def antipode (lon lat : ℝ) : Option (ℝ × ℝ) :=
  let v := sph2cart lon lat
  cart2sph (-v.1) (-v.2.1) (-v.2.2)

/-- Scalar core of `pole` (stereonet_math.py, lines 183-208): the dip>90
normalization followed by plotting the point for strike 0 and rotating. -/
noncomputable def pole1 (strike dip : ℝ) : Option (ℝ × ℝ) :=
  let dip' := if dip > 90 then 180 - dip else dip
  let strike' := if dip > 90 then strike + 180 else strike
  rotate (-dip') 0 strike'

/-- `pole(strike, dip)` (stereonet_math.py, lines 183-208) at the array
level, including its effect on the caller's arrays.  `np.atleast_1d`
returns array arguments unchanged (no copy), and the masked assignments
`dip[mask] = 180 - dip[mask]`, `strike[mask] += 180` then mutate the
caller's arrays in place; the second component of the result is the pair
of arrays as the caller sees them after the call (contrast `rake`,
lines 233-240, which does `rake_angle.copy()` before mutating). -/
noncomputable def pole (strike dip : List ℝ) :
    List (Option (ℝ × ℝ)) × (List ℝ × List ℝ) :=
  let strike' := (strike.zip dip).map fun sd =>
    if sd.2 > 90 then sd.1 + 180 else sd.1
  let dip' := dip.map fun d => if d > 90 then 180 - d else d
  ((strike.zip dip).map (fun sd => pole1 sd.1 sd.2), (strike', dip'))

/-- `geographic2plunge_bearing` (stereonet_math.py, lines 464-504), scalar
form.  Note the guard `r[r == 0] = 1e-15` before the division `x / r`:
this function, not `cart2sph`, substitutes a small epsilon for a zero
norm.  Outputs are in degrees. -/
noncomputable def geographic2plunge_bearing (lon lat : ℝ) : ℝ × ℝ :=
  let v := sph2cart lon lat
  let x := v.1
  let y := v.2.1
  let z := v.2.2
  let bearing0 := arctan2 z y
  let r := Real.sqrt (x * x + y * y + z * z)
  let r' := if r = 0 then 1e-15 else r
  let plunge0 := Real.arcsin (x / r')
  let plunge1 := degrees plunge0
  let bearing1 := 90 - degrees bearing0
  let bearing2 := if bearing1 < 0 then bearing1 + 360 else bearing1
  let plunge2 := if plunge1 < 0 then -plunge1 else plunge1
  let bearing3 := if plunge1 < 0 then bearing2 - 180 else bearing2
  let bearing4 := if plunge1 < 0 ∧ bearing3 < 0 then bearing3 + 360 else bearing3
  (plunge2, bearing4)

/-- `geographic2pole` (stereonet_math.py, lines 439-462), scalar form:
strike/dip (in degrees) of the plane whose pole is at `(lon, lat)`. -/
noncomputable def geographic2pole (lon lat : ℝ) : ℝ × ℝ :=
  let pb := geographic2plunge_bearing lon lat
  let strike0 := pb.2 + 90
  let strike := if strike0 ≥ 360 then strike0 - 360 else strike0
  (strike, 90 - pb.1)

/-- Dot product of two cartesian triples (`np.dot` / the `einsum` calls). -/
noncomputable def dot3 (a b : ℝ × ℝ × ℝ) : ℝ :=
  a.1 * b.1 + a.2.1 * b.2.1 + a.2.2 * b.2.2

/-- Componentwise negation of a cartesian triple (`-x, -y, -z`). -/
noncomputable def negV (v : ℝ × ℝ × ℝ) : ℝ × ℝ × ℝ := (-v.1, -v.2.1, -v.2.2)

/-- Claim-side form of the Fisher statistics (C5), written from the
claim's words rather than the code: with `N` the number of points and `R`
the Euclidean norm of the vector sum of the points' unit vectors,
`p = (100 - conf)/100`, the triple is the resultant length `r = R/N` of
the mean vector, the confidence-cone half-angle
`arccos(1 - ((N-R)/R)·((1/p)^(1/(N-1)) - 1))` (expressed in degrees, the
unit the spec's golden values in §8 use), and `κ = (N-1)/(N-R)`. -/
noncomputable def fisherSpecStats (lons lats : List ℝ) (conf : ℝ) :
    ℝ × ℝ × ℝ :=
  let vs := (lons.zip lats).map fun q => sph2cart q.1 q.2
  let N : ℝ := lons.length
  let S : EuclideanSpace ℝ (Fin 3) :=
    (WithLp.equiv 2 (Fin 3 → ℝ)).symm
      ![(vs.map fun v => v.1).sum, (vs.map fun v => v.2.1).sum,
        (vs.map fun v => v.2.2).sum]
  let R := ‖S‖
  let p := (100 - conf) / 100
  (R / N,
   degrees (Real.arccos (1 - ((N - R) / R) * ((1 / p) ^ (1 / (N - 1)) - 1))),
   (N - 1) / (N - R))

/-- `angular_distance` (stereonet_math.py, lines 692-763), scalar form:
arccos of the dot product of the two unit vectors, folded into `[0, π/2]`
when `bidirectional`.  The source's NaN repair (lines 754-757) only
rewrites entries where float `arccos` produced NaN from `|dot|` slightly
exceeding 1; over the exact reals `|dot| ≤ 1` always holds and
`Real.arccos` is total, so that branch is the identity. -/
noncomputable def angular_distance (first second : ℝ × ℝ)
    (bidirectional : Bool) : ℝ :=
  let xyz1 := sph2cart first.1 first.2
  let xyz2 := sph2cart second.1 second.2
  let angle := Real.arccos (dot3 xyz1 xyz2)
  if bidirectional ∧ angle > Real.pi / 2 then Real.pi - angle else angle

/-- `fisher_stats` (stereonet_math.py, lines 382-437).  The first component
models the Python `mean_vec`-or-`None` slot: the outer `Option` is the
`None` sentinel returned when at most one point is given, the inner
`Option` is `cart2sph`'s own (non-)finiteness.  The second component is
the `(r_value, angle, kappa)` triple, `None` for at most one point.
`angle` is returned in degrees (`np.degrees` on line 433). -/
noncomputable def fisher_stats (lons lats : List ℝ) (conf : ℝ) :
    Option (Option (ℝ × ℝ)) × Option (ℝ × ℝ × ℝ) :=
  let xyz := (lons.zip lats).map fun p => sph2cart p.1 p.2
  let num := xyz.length
  let sx := (xyz.map fun v => v.1).sum
  let sy := (xyz.map fun v => v.2.1).sum
  let sz := (xyz.map fun v => v.2.2).sum
  let r_value := Real.sqrt ((sx / num) ^ 2 + (sy / num) ^ 2 + (sz / num) ^ 2)
  let mean_vec := cart2sph (sx / num) (sy / num) (sz / num)
  if 1 < num then
    let p := (100 - conf) / 100
    let result_vect := Real.sqrt (sx ^ 2 + sy ^ 2 + sz ^ 2)
    let fract1 := ((num : ℝ) - result_vect) / result_vect
    let fract3 := 1 / ((num : ℝ) - 1)
    let angle := degrees (Real.arccos (1 - fract1 * ((1 / p) ^ fract3 - 1)))
    let kappa := ((num : ℝ) - 1) / ((num : ℝ) - result_vect)
    (some mean_vec, some (r_value, angle, kappa))
  else (none, none)

/-- The components of a cartesian triple as a `Fin 3`-indexed vector (a row
of the stacked `xyz` array in `cov_eig`). -/
noncomputable def comp3 (v : ℝ × ℝ × ℝ) : Fin 3 → ℝ := ![v.1, v.2.1, v.2.2]

/-- `np.cov(xyz.T)` for an `m × 3` stack of cartesian rows: the 3×3 matrix
of `(1/(m-1))·Σ (xᵢ-μᵢ)(xⱼ-μⱼ)`. -/
noncomputable def covMatrix (xyz : List (ℝ × ℝ × ℝ)) : Matrix (Fin 3) (Fin 3) ℝ :=
  Matrix.of fun a b =>
    let m : ℝ := xyz.length
    let mu : Fin 3 → ℝ := fun i => (xyz.map fun v => comp3 v i).sum / m
    ((xyz.map fun v => (comp3 v a - mu a) * (comp3 v b - mu b)).sum) / (m - 1)

/-- `cov_eig` (analysis.py, lines 197-208): when `bidirectional`, append
each point's antipode (`np.hstack`) before stacking cartesian coordinates
and building the covariance matrix.  The external `np.linalg.eigh` call
and the subsequent eigenvalue `argsort` are abstracted as the parameter
`eigh`: every theorem below quantifies over all such functions, so it
covers the concrete LAPACK routine and sort.  `antipode` always returns
`some` here (its input is a unit vector), so the `getD` default is never
used. -/
noncomputable def cov_eig {α : Type} (eigh : Matrix (Fin 3) (Fin 3) ℝ → α)
    (lon lat : List ℝ) (bidirectional : Bool) : α :=
  let pts := lon.zip lat
  let lon2 := if bidirectional then
      lon ++ pts.map fun p => ((antipode p.1 p.2).getD (0, 0)).1
    else lon
  let lat2 := if bidirectional then
      lat ++ pts.map fun p => ((antipode p.1 p.2).getD (0, 0)).2
    else lat
  eigh (covMatrix ((lon2.zip lat2).map fun p => sph2cart p.1 p.2))

/-- The k-means initialization (analysis.py, lines 381-383):
`center_lon = np.random.choice(lon, num)` and, independently,
`center_lat = np.random.choice(lat, num)`, then `np.column_stack`.
The outcome of each `np.random.choice(a, num)` is modelled by the list of
`num` sampled positions into `a` (sampling is with replacement, so
arbitrary, possibly repeating, indices). -/
noncomputable def kmeansInitCenters (lon lat : List ℝ)
    (lonIdx latIdx : List ℕ) : List (ℝ × ℝ) :=
  (lonIdx.zip latIdx).map fun ij => (lon.getD ij.1 0, lat.getD ij.2 0)

/-- One axis of the counter-station grid of `_count_points`:
`np.mgrid[-π/2 : π/2 : n*1j]`, i.e. `n` points from `-π/2` to `π/2`
inclusive (for `n = 1`, the single point `-π/2`, matching numpy where the
step `π/(n-1)` never gets used). -/
noncomputable def linspace (n : ℕ) : List ℝ :=
  (List.range n).map fun k : ℕ =>
    -(Real.pi / 2) + (k : ℝ) * (Real.pi / ((n : ℝ) - 1))

/-- `_kamb_radius` (contouring.py, lines 183-186). -/
noncomputable def kamb_radius (n sigma : ℝ) : ℝ :=
  1 - sigma ^ 2 / (n + sigma ^ 2)

/-- `_kamb_units` (contouring.py, lines 188-190). -/
noncomputable def kamb_units (n radius : ℝ) : ℝ :=
  Real.sqrt (n * radius * (1 - radius))

/-- `_exponential_kamb` (contouring.py, lines 194-200). -/
noncomputable def exponential_kamb (cos_dist : List ℝ) (sigma : ℝ) :
    List ℝ × ℝ :=
  let n : ℝ := cos_dist.length
  let f := 2 * (1 + n / sigma ^ 2)
  (cos_dist.map fun c => Real.exp (f * (c - 1)),
   Real.sqrt (n * (f / 2 - 1) / f ^ 2))

/-- `_linear_inverse_kamb` (contouring.py, lines 202-209); the boolean
indexing `cos_dist[cos_dist >= radius]` is a filter. -/
noncomputable def linear_inverse_kamb (cos_dist : List ℝ) (sigma : ℝ) :
    List ℝ × ℝ :=
  let n : ℝ := cos_dist.length
  let radius := kamb_radius n sigma
  let f := 2 / (1 - radius)
  ((cos_dist.filter fun c => radius ≤ c).map fun c => f * (c - radius),
   kamb_units n radius)

/-- `_square_inverse_kamb` (contouring.py, lines 211-218). -/
noncomputable def square_inverse_kamb (cos_dist : List ℝ) (sigma : ℝ) :
    List ℝ × ℝ :=
  let n : ℝ := cos_dist.length
  let radius := kamb_radius n sigma
  let f := 3 / (1 - radius) ^ 2
  ((cos_dist.filter fun c => radius ≤ c).map fun c => f * (c - radius) ^ 2,
   kamb_units n radius)

/-- `_kamb_count` (contouring.py, lines 220-225). -/
noncomputable def kamb_count (cos_dist : List ℝ) (sigma : ℝ) : List ℝ × ℝ :=
  let n : ℝ := cos_dist.length
  let dist := kamb_radius n sigma
  (cos_dist.map fun c => if c ≥ dist then (1 : ℝ) else 0, kamb_units n dist)

/-- `_schmidt_count` (contouring.py, lines 227-233): count points whose
cosine distance is within the 1% counting circle, offset every entry by
`0.5/n` (so that the shared `-0.5` in `_count_points` cancels), normalize
by `n·0.01`. -/
noncomputable def schmidt_count (cos_dist : List ℝ) (_sigma : ℝ) :
    List ℝ × ℝ :=
  let radius : ℝ := 0.01
  let count := cos_dist.map fun c => if 1 - c ≤ radius then (1 : ℝ) else 0
  (count.map fun v => 0.5 / (count.length : ℝ) + v,
   (cos_dist.length : ℝ) * radius)

/-- `np.interp(t, xs, ys, right=0)` over a sorted table given as pairs:
below the first node return the first value, above the last node return 0,
linear interpolation in between. -/
noncomputable def npInterp (t : ℝ) : List (ℝ × ℝ) → ℝ
  | [] => 0
  | [q] => if t > q.1 then 0 else q.2
  | q₁ :: q₂ :: rest =>
    if t < q₁.1 then q₁.2
    else if t ≤ q₂.1 then
      q₁.2 + (q₂.2 - q₁.2) * (t - q₁.1) / (q₂.1 - q₁.1)
    else npInterp t (q₂ :: rest)

/-- Abscissae of the digitized Fisher probability-weighting curve
(contouring.py, line 244): (pole-grid separation)/(counting angle). -/
noncomputable def fisherTableX : List ℝ :=
  [3.00249357093607e-6, 0.0419508401727634, 0.0800855110168995,
   0.122036351189663, 0.160171022033799, 0.204025443130519,
   0.244069699885755, 0.282213378210604, 0.324167220876938,
   0.362310899201787, 0.404270746855263, 0.442420430167253,
   0.482482701883914, 0.526361142929202, 0.566429419633005,
   0.606503701323949, 0.64847856144528, 0.688561850616937,
   0.730560730686835, 0.770659032326347, 0.808856755535472,
   0.852789241465036, 0.892911563053115, 0.93305189960262,
   0.971312675176734, 1.01154308653336, 1.04985790699175,
   1.09001625850268, 1.12824400664752, 1.16836332574202,
   1.21037421578621, 1.25237009336253, 1.28863721320556,
   1.33253066671871, 1.37259293843537, 1.41074562424093,
   1.44890431503363, 1.48895457677601, 1.52710125759443,
   1.5671515193368, 1.60910836449671, 1.64534245691046,
   1.68729629957679, 1.72734055633203, 1.99809341658247]

/-- Ordinates of the digitized Fisher probability-weighting curve
(contouring.py, line 245). -/
noncomputable def fisherTableY : List ℝ :=
  [0.998425192122057, 0.996784329385554, 0.995149471636193,
   0.991933801021748, 0.990298943272387, 0.988655078042314,
   0.985442409921439, 0.979083128538251, 0.974292650045863,
   0.967933368662674, 0.959993274414401, 0.950484377275327,
   0.937822861886797, 0.923580533633182, 0.907769402488766,
   0.888808655588466, 0.872994521950479, 0.849309351416351,
   0.820896754754823, 0.789337544830982, 0.754631721644826,
   0.712042851588244, 0.667885178640861, 0.614278658425822,
   0.546501869802871, 0.445651113249553, 0.349527782823635,
   0.28647241534094, 0.236018513375358, 0.193435648305918,
   0.15872382013262, 0.131886031349035, 0.109781673679991,
   0.0876653060366634, 0.0750037906481335, 0.0639200856311168,
   0.0496867648582148, 0.043324480981455, 0.0353903917203239,
   0.0290281078435641, 0.0226628214732336, 0.0178813504615584,
   0.0130908719691704, 0.00987820384829607, 3.00249357088056e-6]

/-- `_fisher` (contouring.py, lines 235-254): interpolate the tabulated
probability weighting at `(1 - cos_dist)/0.01`, offset by `0.5/n`,
normalize by `n·0.01`.  (The source also computes an unused local
`cone_angle = sqrt(2·radius)`.) -/
noncomputable def fisher_kernel (cos_dist : List ℝ) (_sigma : ℝ) :
    List ℝ × ℝ :=
  let radius : ℝ := 0.01
  let count := cos_dist.map fun c =>
    npInterp ((1 - c) / radius) (fisherTableX.zip fisherTableY)
  ((count.map fun v => 0.5 / (count.length : ℝ) + v),
   (count.length : ℝ) * radius)

/-- The `method` keyword of `density_grid` as a closed enumeration (the
source dispatches through a string-keyed dict, lines 167-173). -/
inductive Method
  | kamb
  | linear_kamb
  | square_kamb
  | exponential_kamb
  | schmidt
  | fisher
  deriving DecidableEq

/-- The kernel-function lookup of `density_grid` (contouring.py,
lines 167-173). -/
noncomputable def kernelOf : Method → List ℝ → ℝ → List ℝ × ℝ
  | Method.kamb => kamb_count
  | Method.linear_kamb => linear_inverse_kamb
  | Method.square_kamb => square_inverse_kamb
  | Method.exponential_kamb => exponential_kamb
  | Method.schmidt => schmidt_count
  | Method.fisher => fisher_kernel

/-- `np.finfo(float).tiny`, the smallest positive normal double,
`2^(-1022)`. -/
noncomputable def tiny : ℝ := (2 : ℝ) ^ (-(1022 : ℤ))

/-- `_count_points` (contouring.py, lines 4-47): build the regular grid
of counter stations, evaluate the kernel on the vector of absolute cosine
distances at each station, weight, apply the shared `(sum - 0.5)/scale`
normalization and clamp negative densities to zero.  `weights = none`
models the default `weights=None` (the scalar 1, which normalization
leaves as 1); an explicit weight array is normalized by its mean and
multiplied elementwise.  The returned stations are the grid coordinates
(whose `cart2sph∘sph2cart` round trip in the source only reshapes). -/
noncomputable def count_points (lons lats : List ℝ)
    (func : List ℝ → ℝ → List ℝ × ℝ) (sigma : ℝ) (gridsize : ℕ × ℕ)
    (weights : Option (List ℝ)) : List (ℝ × ℝ) × List ℝ :=
  let wnorm : Option (List ℝ) :=
    weights.map fun ws => ws.map fun w => w / (ws.sum / (ws.length : ℝ))
  let lonGrid := linspace gridsize.2
  let latGrid := linspace gridsize.1
  let counters := lonGrid.flatMap fun lo => latGrid.map fun la => (lo, la)
  let xyzPoints := (lons.zip lats).map fun p => sph2cart p.1 p.2
  let totals := counters.map fun c =>
    let xyz := sph2cart c.1 c.2
    let cos_dist := xyzPoints.map fun v => |dot3 xyz v|
    let dens := func cos_dist sigma
    let density := match wnorm with
      | none => dens.1
      | some ws => dens.1.zipWith (fun a b => a * b) ws
    (density.sum - 0.5) / dens.2
  (counters, totals.map fun t => if t < 0 then 0 else t)

/-- `density_grid` (contouring.py, lines 49-181), density values only, for
measurements already converted to stereonet (lon, lat) by the
measurement-kind dispatch of lines 159-163 (`pole`, `line`, `rake`, or the
identity for `'radians'`).  After `_count_points`, every exact-zero cell
of a non-`schmidt`, non-`kamb` (smoothed) method is bumped to the smallest
positive float (lines 176-179). -/
noncomputable def density_grid (lons lats : List ℝ) (method : Method)
    (sigma : ℝ) (gridsize : ℕ × ℕ) (weights : Option (List ℝ)) : List ℝ :=
  let z := (count_points lons lats (kernelOf method) sigma gridsize weights).2
  if method ≠ Method.schmidt ∧ method ≠ Method.kamb then
    z.map fun v => if v = 0 then tiny else v
  else z

end Mplstereonet

namespace Mplstereonet

/-! ### Basic lemmas about the coordinate conversions -/

/-- `sph2cart` always produces a unit vector. -/
theorem sph2cart_norm (lon lat : ℝ) :
    (sph2cart lon lat).1 ^ 2 + (sph2cart lon lat).2.1 ^ 2 +
      (sph2cart lon lat).2.2 ^ 2 = 1 := by
  simp only [sph2cart]
  have h1 : Real.cos lon ^ 2 + Real.sin lon ^ 2 = 1 := Real.cos_sq_add_sin_sq lon
  have h2 : Real.cos lat ^ 2 + Real.sin lat ^ 2 = 1 := Real.cos_sq_add_sin_sq lat
  ring_nf
  nlinarith [h1, h2]

/-- On a unit vector, `cart2sph` is defined and has the closed form
`(arctan2 y x, arcsin z)`. -/
theorem cart2sph_unit {x y z : ℝ} (h : x ^ 2 + y ^ 2 + z ^ 2 = 1) :
    cart2sph x y z = some (arctan2 y x, Real.arcsin z) := by
  simp only [cart2sph, h, Real.sqrt_one, one_ne_zero, if_false, div_one]

/-- `arctan2` of a positively scaled point on the unit circle recovers the
angle, for angles in `(-π, π]`. -/
theorem arctan2_mul_sin_cos {c θ : ℝ} (hc : 0 < c)
    (hθ₁ : -Real.pi < θ) (hθ₂ : θ ≤ Real.pi) :
    arctan2 (c * Real.sin θ) (c * Real.cos θ) = θ := by
  have hmk : (⟨c * Real.cos θ, c * Real.sin θ⟩ : ℂ) =
      (c : ℂ) * ⟨Real.cos θ, Real.sin θ⟩ := by
    apply Complex.ext <;> simp
  have harg : Complex.arg ⟨Real.cos θ, Real.sin θ⟩ = θ := by
    have : (⟨Real.cos θ, Real.sin θ⟩ : ℂ) =
        Complex.cos θ + Complex.sin θ * Complex.I := by
      rw [Complex.mk_eq_add_mul_I, Complex.ofReal_cos, Complex.ofReal_sin]
    rw [this]
    exact Complex.arg_cos_add_sin_mul_I ⟨hθ₁, hθ₂⟩
  unfold arctan2
  rw [hmk, Complex.arg_real_mul _ hc, harg]

/-- `sph2cart` inverts `cart2sph` on unit vectors. -/
theorem sph2cart_arctan2_arcsin {x y z : ℝ} (h : x ^ 2 + y ^ 2 + z ^ 2 = 1) :
    sph2cart (arctan2 y x) (Real.arcsin z) = (x, y, z) := by
  have hz2 : z ^ 2 ≤ 1 := by nlinarith [sq_nonneg x, sq_nonneg y]
  have hz1 : -1 ≤ z := by nlinarith
  have hz1' : z ≤ 1 := by nlinarith
  have hcos : Real.cos (Real.arcsin z) = Real.sqrt (x ^ 2 + y ^ 2) := by
    rw [Real.cos_arcsin]
    congr 1
    linarith
  have hsin : Real.sin (Real.arcsin z) = z := Real.sin_arcsin hz1 hz1'
  by_cases hxy : x ^ 2 + y ^ 2 = 0
  · have hx : x = 0 := by nlinarith [sq_nonneg x, sq_nonneg y]
    have hy : y = 0 := by nlinarith [sq_nonneg x, sq_nonneg y]
    simp only [sph2cart, hcos, hsin, hx, hy]
    norm_num
  · have hxy' : 0 < x ^ 2 + y ^ 2 := lt_of_le_of_ne (by positivity) (Ne.symm hxy)
    have hne : (⟨x, y⟩ : ℂ) ≠ 0 := by
      intro hzero
      rw [Complex.ext_iff] at hzero
      simp only [Complex.zero_re, Complex.zero_im] at hzero
      nlinarith [hzero.1, hzero.2]
    have habs : Complex.abs ⟨x, y⟩ = Real.sqrt (x ^ 2 + y ^ 2) := by
      rw [Complex.abs_apply, Complex.normSq_mk]
      ring_nf
    have hsq : Real.sqrt (x ^ 2 + y ^ 2) ≠ 0 := by
      positivity
    have hcosarg : Real.cos (arctan2 y x) = x / Real.sqrt (x ^ 2 + y ^ 2) := by
      unfold arctan2
      rw [Complex.cos_arg hne, habs]
    have hsinarg : Real.sin (arctan2 y x) = y / Real.sqrt (x ^ 2 + y ^ 2) := by
      unfold arctan2
      rw [Complex.sin_arg, habs]
    simp only [sph2cart, hcos, hsin, hcosarg, hsinarg]
    field_simp

/-- `antipode` is always defined (its argument to `cart2sph` is a unit
vector) and its cartesian image is the negated input vector. -/
theorem antipode_spec (lon lat : ℝ) :
    antipode lon lat =
      some (arctan2 (-(sph2cart lon lat).2.1) (-(sph2cart lon lat).1),
            Real.arcsin (-(sph2cart lon lat).2.2)) ∧
    ∀ p, antipode lon lat = some p →
      sph2cart p.1 p.2 =
        (-(sph2cart lon lat).1, -(sph2cart lon lat).2.1,
         -(sph2cart lon lat).2.2) := by
  have hn := sph2cart_norm lon lat
  have hn' : (-(sph2cart lon lat).1) ^ 2 + (-(sph2cart lon lat).2.1) ^ 2 +
      (-(sph2cart lon lat).2.2) ^ 2 = 1 := by
    simpa [neg_sq] using hn
  have heq : antipode lon lat =
      some (arctan2 (-(sph2cart lon lat).2.1) (-(sph2cart lon lat).1),
            Real.arcsin (-(sph2cart lon lat).2.2)) := by
    unfold antipode
    exact cart2sph_unit hn'
  refine ⟨heq, fun p hp => ?_⟩
  rw [heq] at hp
  have hp' := Option.some.inj hp
  rw [← hp']
  exact sph2cart_arctan2_arcsin hn'

/-- C1 counterexample: at the zero vector, `cart2sph` divides by `r = 0`
and the latitude is non-finite (NaN); no epsilon is substituted. -/
theorem c1_counterexample : cart2sph 0 0 0 = none := by
  norm_num [cart2sph]

/-- C1 (amended): `cart2sph` has no guard against `r = 0` — at the zero
vector the latitude is the non-finite `0/0` (see `c1_counterexample`);
for every nonzero cartesian input it does return finite longitude and
latitude.  (The epsilon substitution for a zero norm that the claim
describes is performed by `geographic2plunge_bearing`, not `cart2sph`.) -/
theorem c1_amended (x y z : ℝ) (h : (x, y, z) ≠ ((0 : ℝ), (0 : ℝ), (0 : ℝ))) :
    ∃ q, cart2sph x y z = some q := by
  have hs : x ^ 2 + y ^ 2 + z ^ 2 ≠ 0 := by
    intro h0
    apply h
    have hx : x = 0 := by nlinarith [sq_nonneg x, sq_nonneg y, sq_nonneg z]
    have hy : y = 0 := by nlinarith [sq_nonneg x, sq_nonneg y, sq_nonneg z]
    have hz : z = 0 := by nlinarith [sq_nonneg x, sq_nonneg y, sq_nonneg z]
    rw [hx, hy, hz]
  have hpos : 0 < x ^ 2 + y ^ 2 + z ^ 2 :=
    lt_of_le_of_ne (by positivity) (Ne.symm hs)
  have hr : Real.sqrt (x ^ 2 + y ^ 2 + z ^ 2) ≠ 0 := by positivity
  refine ⟨(arctan2 y x, Real.arcsin (z / Real.sqrt (x ^ 2 + y ^ 2 + z ^ 2))), ?_⟩
  simp only [cart2sph, hr, if_false]

/-- C1 witness for `c1_amended`. -/
theorem c1_amended_witness :
    ((1 : ℝ), (0 : ℝ), (0 : ℝ)) ≠ ((0 : ℝ), (0 : ℝ), (0 : ℝ)) ∧
      ∃ q, cart2sph 1 0 0 = some q :=
  ⟨by norm_num, c1_amended 1 0 0 (by norm_num)⟩

/-- C2: evaluating `pole` at the failing input `strike = [0]`,
`dip = [100]` (numpy float arrays).  After the call the caller's arrays
hold `[180]` and `[80]` — the in-place dip>90 normalization leaks to the
caller — not the original `[0]` and `[100]` the claim requires. -/
theorem c2_mutation :
    (pole [0] [100]).2 = ([180], [80]) ∧
      (([180], [80]) : List ℝ × List ℝ) ≠ ([0], [100]) := by
  constructor
  · simp only [pole, List.zip_cons_cons, List.zip_nil_right, List.map_cons,
      List.map_nil]
    norm_num
  · intro hcontra
    have h1 : ([(180 : ℝ)] : List ℝ) = [0] := congrArg Prod.fst hcontra
    have h2 : (180 : ℝ) = 0 := List.head_eq_of_cons_eq h1
    norm_num at h2

/-- C7: `antipode` is an involution on canonical stereonet coordinates
(`lon ∈ (-π, π]`, `lat ∈ (-π/2, π/2)`), and the directed angular distance
from any point to its antipode is exactly `π`. -/
theorem c7_antipode_involution (lon lat : ℝ)
    (h₁ : -Real.pi < lon) (h₂ : lon ≤ Real.pi)
    (h₃ : -(Real.pi / 2) < lat) (h₄ : lat < Real.pi / 2) :
    ((antipode lon lat).bind fun p => antipode p.1 p.2) = some (lon, lat) ∧
      ∀ p, antipode lon lat = some p →
        angular_distance (lon, lat) p false = Real.pi := by
  obtain ⟨heq, hcart⟩ := antipode_spec lon lat
  have hv := sph2cart_norm lon lat
  constructor
  · set p := (arctan2 (-(sph2cart lon lat).2.1) (-(sph2cart lon lat).1),
      Real.arcsin (-(sph2cart lon lat).2.2)) with hp
    have hpc : sph2cart p.1 p.2 =
        (-(sph2cart lon lat).1, -(sph2cart lon lat).2.1,
         -(sph2cart lon lat).2.2) := hcart p heq
    rw [heq]
    show antipode p.1 p.2 = some (lon, lat)
    unfold antipode
    rw [hpc]
    simp only [neg_neg]
    rw [cart2sph_unit hv]
    have hcpos : 0 < Real.cos lat := Real.cos_pos_of_mem_Ioo ⟨h₃, h₄⟩
    have hlon : arctan2 (sph2cart lon lat).2.1 (sph2cart lon lat).1 = lon := by
      simp only [sph2cart]
      exact arctan2_mul_sin_cos hcpos h₁ h₂
    have hlat : Real.arcsin (sph2cart lon lat).2.2 = lat := by
      simp only [sph2cart]
      exact Real.arcsin_sin (by linarith) (by linarith)
    rw [hlon, hlat]
  · intro p hp
    have hpc := hcart p hp
    unfold angular_distance
    rw [show sph2cart (lon, lat).1 (lon, lat).2 = sph2cart lon lat from rfl, hpc]
    have hdot : dot3 (sph2cart lon lat)
        (-(sph2cart lon lat).1, -(sph2cart lon lat).2.1,
         -(sph2cart lon lat).2.2) = -1 := by
      simp only [dot3]
      nlinarith [hv]
    simp [hdot, Real.arccos_neg_one]

theorem arctan2_zero_one : arctan2 0 1 = 0 := by
  unfold arctan2
  rw [show (⟨1, 0⟩ : ℂ) = 1 by apply Complex.ext <;> simp]
  exact Complex.arg_one

theorem arctan2_zero_zero : arctan2 0 0 = 0 := by
  unfold arctan2
  rw [show (⟨0, 0⟩ : ℂ) = 0 by apply Complex.ext <;> simp]
  exact Complex.arg_zero

theorem degrees_radians (d : ℝ) : degrees (radians d) = d := by
  unfold degrees radians
  field_simp

/-- Cartesian form of the `pole` construction: plot `(lon, lat) = (-dip, 0)`
and rotate about the x-axis by the strike. -/
theorem rotate_neg_lon_zero (d s : ℝ) :
    rotate (-d) 0 s =
      cart2sph (Real.cos (radians d))
        (-Real.sin (radians d) * Real.cos (radians s))
        (Real.sin (radians d) * Real.sin (radians s)) := by
  have h1 : radians (-d) = -(radians d) := by unfold radians; ring
  have h0 : radians 0 = 0 := by unfold radians; ring
  unfold rotate
  rw [h1, h0]
  unfold rotateX sph2cart
  norm_num

/-- `geographic2plunge_bearing` on canonical coordinates of a unit vector
with non-negative x (downward-or-horizontal plunge): the upward correction
does not fire. -/
theorem g2pb_unit_nonneg {x y z : ℝ} (h : x ^ 2 + y ^ 2 + z ^ 2 = 1)
    (hx : 0 ≤ x) :
    geographic2plunge_bearing (arctan2 y x) (Real.arcsin z) =
      (degrees (Real.arcsin x),
       if 90 - degrees (arctan2 z y) < 0 then 90 - degrees (arctan2 z y) + 360
       else 90 - degrees (arctan2 z y)) := by
  have hsph := sph2cart_arctan2_arcsin h
  have hxx : x * x + y * y + z * z = 1 := by nlinarith [h]
  have hpl : ¬ degrees (Real.arcsin x) < 0 := by
    push_neg
    unfold degrees
    have harc : 0 ≤ Real.arcsin x := Real.arcsin_nonneg.mpr hx
    positivity
  have hplF : (degrees (Real.arcsin x) < 0) = False := eq_false hpl
  unfold geographic2plunge_bearing
  simp only [hsph]
  simp only [hxx, Real.sqrt_one, one_ne_zero, if_false, div_one, hplF,
    false_and]

/-- The rotated pole vector is a unit vector. -/
theorem pole_vec_norm (a b : ℝ) :
    Real.cos a ^ 2 + (-Real.sin a * Real.cos b) ^ 2 +
      (Real.sin a * Real.sin b) ^ 2 = 1 := by
  have h1 : Real.cos a ^ 2 + Real.sin a ^ 2 = 1 := Real.cos_sq_add_sin_sq a
  have h2 : Real.cos b ^ 2 + Real.sin b ^ 2 = 1 := Real.cos_sq_add_sin_sq b
  nlinarith [h1, h2]

/-- General round trip: for strike in `[0, 360)` and dip in `(0, 90]`,
`geographic2pole` inverts `pole` exactly. -/
theorem pole1_roundtrip {s d : ℝ} (hs0 : 0 ≤ s) (hs1 : s < 360)
    (hd0 : 0 < d) (hd1 : d ≤ 90) :
    (pole1 s d).map (fun p => geographic2pole p.1 p.2) = some (s, d) := by
  have hpi := Real.pi_pos
  set rd := radians d with hrd
  set rs := radians s with hrs
  have hrd0 : 0 < rd := by
    rw [hrd]; unfold radians; positivity
  have hrd1 : rd ≤ Real.pi / 2 := by
    rw [hrd]; unfold radians; nlinarith
  have hrs0 : 0 ≤ rs := by
    rw [hrs]; unfold radians; positivity
  have hrs1 : rs < 2 * Real.pi := by
    rw [hrs]; unfold radians; nlinarith
  have hd90 : ¬ d > 90 := not_lt.mpr hd1
  have hstep1 : pole1 s d = cart2sph (Real.cos rd)
      (-Real.sin rd * Real.cos rs) (Real.sin rd * Real.sin rs) := by
    unfold pole1
    rw [if_neg hd90, if_neg hd90]
    exact rotate_neg_lon_zero d s
  have hunit := pole_vec_norm rd rs
  rw [hstep1, cart2sph_unit hunit]
  simp only [Option.map_some']
  -- evaluate geographic2plunge_bearing on the unit vector
  have hcos_nonneg : 0 ≤ Real.cos rd :=
    Real.cos_nonneg_of_mem_Icc ⟨by linarith, hrd1⟩
  have hsin_pos : 0 < Real.sin rd :=
    Real.sin_pos_of_pos_of_lt_pi hrd0 (by linarith)
  have hplunge : Real.arcsin (Real.cos rd) = Real.pi / 2 - rd := by
    rw [← Real.sin_pi_div_two_sub, Real.arcsin_sin (by linarith) (by linarith)]
  have hbearing : arctan2 (Real.sin rd * Real.sin rs)
      (-Real.sin rd * Real.cos rs) = Real.pi - rs := by
    have e1 : Real.sin rd * Real.sin rs =
        Real.sin rd * Real.sin (Real.pi - rs) := by
      rw [Real.sin_pi_sub]
    have e2 : -Real.sin rd * Real.cos rs =
        Real.sin rd * Real.cos (Real.pi - rs) := by
      rw [Real.cos_pi_sub]; ring
    rw [e1, e2]
    exact arctan2_mul_sin_cos hsin_pos (by linarith) (by linarith)
  unfold geographic2pole
  rw [g2pb_unit_nonneg hunit hcos_nonneg, hplunge, hbearing]
  have hdeg_plunge : degrees (Real.pi / 2 - rd) = 90 - d := by
    rw [hrd]; unfold degrees radians; field_simp; ring
  have hdeg_bearing : degrees (Real.pi - rs) = 180 - s := by
    rw [hrs]; unfold degrees radians; field_simp; ring
  rw [hdeg_plunge, hdeg_bearing]
  by_cases hcase : s < 90
  · have hb1 : 90 - (180 - s) < 0 := by linarith
    have hb2 : 90 - (180 - s) + 360 + 90 ≥ 360 := by linarith
    simp only [if_pos hb1, if_pos hb2, Option.some.injEq, Prod.mk.injEq]
    constructor <;> linarith
  · have hb1 : ¬ 90 - (180 - s) < 0 := by push_neg; linarith
    have hb2 : ¬ 90 - (180 - s) + 90 ≥ 360 := by push_neg; linarith
    simp only [if_neg hb1, if_neg hb2, Option.some.injEq, Prod.mk.injEq]
    constructor <;> linarith

/-- At dip 0 the pole of every strike is the single point `(0, 0)` of the
net (cartesian `(1, 0, 0)`): the degenerate case of the round trip. -/
theorem pole1_zero_dip (s : ℝ) : pole1 s 0 = some (0, 0) := by
  have h90 : ¬ (0 : ℝ) > 90 := by norm_num
  unfold pole1
  simp only [if_neg h90]
  rw [rotate_neg_lon_zero 0 s]
  have h0 : radians 0 = 0 := by unfold radians; ring
  rw [h0]
  simp only [Real.cos_zero, Real.sin_zero, neg_zero, zero_mul]
  have h1 : (1 : ℝ) ^ 2 + 0 ^ 2 + 0 ^ 2 = 1 := by norm_num
  rw [cart2sph_unit h1, arctan2_zero_one, Real.arcsin_zero]

theorem sph2cart_center : sph2cart 0 0 = (1, 0, 0) := by
  simp [sph2cart]

/-- The center of the net maps back to strike 180, dip 0. -/
theorem geographic2pole_center : geographic2pole 0 0 = (180, 0) := by
  have h1 : (1 : ℝ) ^ 2 + 0 ^ 2 + 0 ^ 2 = 1 := by norm_num
  have h2 := g2pb_unit_nonneg h1 (by norm_num : (0 : ℝ) ≤ 1)
  rw [arctan2_zero_one, Real.arcsin_zero, arctan2_zero_zero,
    Real.arcsin_one] at h2
  have hd1 : degrees (Real.pi / 2) = 90 := by
    unfold degrees
    field_simp
    ring
  have hd0 : degrees 0 = 0 := by unfold degrees; simp
  rw [hd1, hd0] at h2
  norm_num at h2
  unfold geographic2pole
  rw [h2]
  norm_num

/-- C6: over the 10-degree grid (strike = 10·i, i < 36; dip = 10·j, j ≤ 9),
`geographic2pole` applied to the output of `pole` reproduces the input
strike and dip exactly for every dip ≥ 10 (including dip = 90), while at
the degenerate dip = 0 the round trip returns (180, 0) and the cartesian
pole vectors of input and output agree up to antipodal equivalence. -/
theorem c6_pole_roundtrip (i j : ℕ) (hi : i < 36) (hj : j ≤ 9) :
    (1 ≤ j →
      (pole1 (10 * (i : ℝ)) (10 * (j : ℝ))).map
          (fun p => geographic2pole p.1 p.2) =
        some (10 * (i : ℝ), 10 * (j : ℝ))) ∧
    (j = 0 →
      (pole1 (10 * (i : ℝ)) 0).map (fun p => geographic2pole p.1 p.2) =
          some ((180 : ℝ), (0 : ℝ)) ∧
        ∀ q q₂, pole1 (10 * (i : ℝ)) 0 = some q → pole1 180 0 = some q₂ →
          (sph2cart q.1 q.2 = sph2cart q₂.1 q₂.2 ∨
            sph2cart q.1 q.2 = negV (sph2cart q₂.1 q₂.2))) := by
  constructor
  · intro h1j
    have hi' : (i : ℝ) ≤ 35 := by exact_mod_cast Nat.lt_succ_iff.mp hi
    have hj1 : (1 : ℝ) ≤ (j : ℝ) := by exact_mod_cast h1j
    have hj9 : (j : ℝ) ≤ 9 := by exact_mod_cast hj
    exact pole1_roundtrip (by positivity) (by linarith) (by linarith)
      (by linarith)
  · intro _
    constructor
    · rw [pole1_zero_dip]
      simp only [Option.map_some']
      rw [geographic2pole_center]
    · intro q q₂ hq hq₂
      rw [pole1_zero_dip] at hq hq₂
      left
      rw [← Option.some.inj hq, ← Option.some.inj hq₂]

/-- C6 witness for `c6_pole_roundtrip` at strike 0, dip 10. -/
theorem c6_witness :
    (0 < 36 ∧ 1 ≤ 1) ∧
      (pole1 (10 * ((0 : ℕ) : ℝ)) (10 * ((1 : ℕ) : ℝ))).map
          (fun p => geographic2pole p.1 p.2) =
        some (10 * ((0 : ℕ) : ℝ), 10 * ((1 : ℕ) : ℝ)) :=
  ⟨⟨by norm_num, le_refl 1⟩,
    (c6_pole_roundtrip 0 1 (by norm_num) (by norm_num)).1 (le_refl 1)⟩

/-- C7 witness for `c7_antipode_involution`, at the origin of the net. -/
theorem c7_witness :
    ((antipode 0 0).bind fun p => antipode p.1 p.2) = some ((0 : ℝ), (0 : ℝ)) ∧
      ∀ p, antipode 0 0 = some p →
        angular_distance (0, 0) p false = Real.pi := by
  have hpi := Real.pi_pos
  exact c7_antipode_involution 0 0 (by linarith) (by linarith)
    (by linarith) (by linarith)

/-- C10: with at most one measurement, `fisher_stats` returns the pair
`(None, None)`: the mean-vector slot itself is the `None` sentinel, not
only the confidence statistics. -/
theorem c10_fisher_stats_none (lons lats : List ℝ) (conf : ℝ)
    (h : lons.length ≤ 1) :
    fisher_stats lons lats conf = (none, none) := by
  have hlen : ((lons.zip lats).map fun p => sph2cart p.1 p.2).length ≤ 1 := by
    rw [List.length_map, List.length_zip]
    exact le_trans (min_le_left _ _) h
  have h2 : ¬ 1 < ((lons.zip lats).map fun p => sph2cart p.1 p.2).length :=
    Nat.not_lt.mpr hlen
  unfold fisher_stats
  simp only [if_neg h2]

/-- C10 witness for `c10_fisher_stats_none`: a single measurement. -/
theorem c10_witness :
    ([(0 : ℝ)].length ≤ 1) ∧ fisher_stats [0] [0] 95 = (none, none) :=
  ⟨by norm_num, c10_fisher_stats_none [0] [0] 95 (by norm_num)⟩

/-- C3 counterexample: with input measurements (0,0) and (1,1) (radians
mode) and the sampling outcome that draws longitude index 0 and latitude
index 1 for a single center, the initial center is (0,1): its longitude
and latitude come from different measurements and it is not one of the
two input points. -/
theorem c3_counterexample :
    kmeansInitCenters [0, 1] [0, 1] [0] [1] = [((0 : ℝ), (1 : ℝ))] ∧
      ((0 : ℝ), (1 : ℝ)) ≠ ((0 : ℝ), (0 : ℝ)) ∧
      ((0 : ℝ), (1 : ℝ)) ≠ ((1 : ℝ), (1 : ℝ)) := by
  refine ⟨by simp [kmeansInitCenters], fun h => ?_, fun h => ?_⟩
  · have h2 := congrArg Prod.snd h
    norm_num at h2
  · have h2 := congrArg Prod.fst h
    norm_num at h2

/-- C3 (amended): each initial k-means center draws its longitude from
the input longitudes and, independently, its latitude from the input
latitudes (`np.random.choice` is called once per coordinate), so the
center need not be one of the input points (see `c3_counterexample`);
duplicate centers remain possible and uncorrected. -/
theorem c3_kmeans_init (lon lat : List ℝ) (lonIdx latIdx : List ℕ)
    (h1 : ∀ i ∈ lonIdx, i < lon.length)
    (h2 : ∀ j ∈ latIdx, j < lat.length) :
    ∀ c ∈ kmeansInitCenters lon lat lonIdx latIdx, c.1 ∈ lon ∧ c.2 ∈ lat := by
  intro c hc
  unfold kmeansInitCenters at hc
  rw [List.mem_map] at hc
  obtain ⟨⟨i, j⟩, hij, hceq⟩ := hc
  obtain ⟨hi, hj⟩ := List.of_mem_zip hij
  rw [← hceq]
  constructor
  · rw [List.getD_eq_getElem _ _ (h1 i hi)]
    exact List.getElem_mem _
  · rw [List.getD_eq_getElem _ _ (h2 j hj)]
    exact List.getElem_mem _

/-- C3 witness for `c3_kmeans_init`. -/
theorem c3_witness :
    (∀ i ∈ [0], i < [(0 : ℝ), 1].length) ∧
      (∀ j ∈ [1], j < [(0 : ℝ), 1].length) ∧
      ((0 : ℝ) ∈ [(0 : ℝ), 1] ∧ (1 : ℝ) ∈ [(0 : ℝ), 1]) :=
  ⟨by simp, by simp,
    c3_kmeans_init [0, 1] [0, 1] [0] [1] (by simp) (by simp)
      ((0 : ℝ), (1 : ℝ)) (by simp [kmeansInitCenters])⟩

theorem comp3_negV (v : ℝ × ℝ × ℝ) (i : Fin 3) :
    comp3 (negV v) i = -(comp3 v i) := by
  fin_cases i <;> simp [comp3, negV]

theorem sum_map_neg {α : Type} (l : List α) (g : α → ℝ) :
    (l.map fun v => -(g v)).sum = -((l.map g).sum) := by
  induction l with
  | nil => simp
  | cons x xs ih =>
    simp only [List.map_cons, List.sum_cons, ih]
    ring

theorem sum_map_append_neg (A : List (ℝ × ℝ × ℝ)) (g : ℝ × ℝ × ℝ → ℝ)
    (hg : ∀ v, g (negV v) = -(g v)) :
    ((A ++ A.map negV).map g).sum = 0 := by
  rw [List.map_append, List.sum_append, List.map_map]
  have h : A.map (g ∘ negV) = A.map fun v => -(g v) :=
    List.map_congr_left fun v _ => hg v
  rw [h, sum_map_neg]
  ring

theorem sum_map_append_even (A : List (ℝ × ℝ × ℝ)) (g : ℝ × ℝ × ℝ → ℝ)
    (hg : ∀ v, g (negV v) = g v) :
    ((A ++ A.map negV).map g).sum = 2 * (A.map g).sum := by
  rw [List.map_append, List.sum_append, List.map_map]
  have h : A.map (g ∘ negV) = A.map g := List.map_congr_left fun v _ => hg v
  rw [h]
  ring

theorem sum_map_set {α : Type} (f : α → ℝ) :
    ∀ (l : List α) (i : ℕ) (a : α) (hi : i < l.length),
      f a = f (l.get ⟨i, hi⟩) →
      ((l.set i a).map f).sum = (l.map f).sum := by
  intro l
  induction l with
  | nil =>
    intro i a hi
    simp at hi
  | cons x xs ih =>
    intro i a hi hf
    cases i with
    | zero =>
      simp only [List.get] at hf
      simp only [List.set, List.map_cons, List.sum_cons, hf]
    | succ n =>
      have hn : n < xs.length := Nat.succ_lt_succ_iff.mp hi
      simp only [List.get] at hf
      simp only [List.set, List.map_cons, List.sum_cons,
        ih n a hn hf]

theorem zip_set {α β : Type} (l₁ : List α) (l₂ : List β) (i : ℕ)
    (a : α) (b : β) :
    (l₁.set i a).zip (l₂.set i b) = (l₁.zip l₂).set i (a, b) := by
  induction l₁ generalizing i l₂ with
  | nil => simp
  | cons x xs ih =>
    cases l₂ with
    | nil => simp
    | cons y ys =>
      cases i with
      | zero =>
        simp [List.set, List.zip_cons_cons, List.zip]
      | succ n =>
        simp only [List.set, List.zip_cons_cons, ih]
        rfl

/-- The cartesian image of the (always-defined) `antipode` is the negated
input vector. -/
theorem s2c_antipode_getD (a b : ℝ) :
    sph2cart ((antipode a b).getD (0, 0)).1 ((antipode a b).getD (0, 0)).2 =
      negV (sph2cart a b) := by
  obtain ⟨heq, hc⟩ := antipode_spec a b
  have h2 := hc _ heq
  rw [heq, Option.getD_some]
  rw [h2]
  rfl

/-- Covariance of an antipode-doubled point set: the mean vanishes and
each entry is twice the raw second moment, over `2m - 1`. -/
theorem covMatrix_doubled (A : List (ℝ × ℝ × ℝ)) :
    covMatrix (A ++ A.map negV) = Matrix.of fun a b =>
      2 * (A.map fun v => comp3 v a * comp3 v b).sum /
        (2 * (A.length : ℝ) - 1) := by
  ext a b
  simp only [covMatrix, Matrix.of_apply]
  have hmu : ∀ i : Fin 3,
      ((A ++ A.map negV).map fun v => comp3 v i).sum = 0 := fun i =>
    sum_map_append_neg A (fun v => comp3 v i) (fun v => comp3_negV v i)
  rw [hmu a, hmu b]
  simp only [zero_div, sub_zero]
  rw [sum_map_append_even A (fun v => comp3 v a * comp3 v b)
    (fun v => by simp only [comp3_negV]; ring)]
  have hlen : ((A ++ A.map negV).length : ℝ) = 2 * (A.length : ℝ) := by
    rw [List.length_append, List.length_map]
    push_cast
    ring
  rw [hlen]

/-- C8: replacing any one measurement by its antipode leaves
`cov_eig (bidirectional := true)` unchanged — the covariance matrix of the
antipode-doubled point set is identical, so any eigen-decomposition (the
abstracted `eigh` plus sort) returns the same eigenvalues and
eigenvectors. -/
theorem c8_cov_eig_axial {α : Type} (eigh : Matrix (Fin 3) (Fin 3) ℝ → α)
    (lon lat : List ℝ) (i : ℕ) (p : ℝ × ℝ)
    (hlen : lon.length = lat.length) (hi : i < lon.length)
    (hp : antipode (lon.getD i 0) (lat.getD i 0) = some p) :
    cov_eig eigh (lon.set i p.1) (lat.set i p.2) true =
      cov_eig eigh lon lat true := by
  unfold cov_eig
  simp only [if_pos rfl, if_true]
  congr 1
  -- rewrite both stacked cartesian lists in the doubled form A ++ A.map negV
  have hdouble : ∀ (u v : List ℝ), u.length = v.length →
      (((u ++ (u.zip v).map fun q => ((antipode q.1 q.2).getD (0, 0)).1).zip
          (v ++ (u.zip v).map fun q => ((antipode q.1 q.2).getD (0, 0)).2)).map
        fun q => sph2cart q.1 q.2) =
      ((u.zip v).map fun q => sph2cart q.1 q.2) ++
        ((u.zip v).map fun q => sph2cart q.1 q.2).map negV := by
    intro u v h
    rw [List.zip_append h, List.zip_map', List.map_append, List.map_map,
      List.map_map]
    congr 1
    apply List.map_congr_left
    intro q _
    exact s2c_antipode_getD q.1 q.2
  have hlen' : (lon.set i p.1).length = (lat.set i p.2).length := by
    rw [List.length_set, List.length_set, hlen]
  rw [hdouble lon lat hlen, hdouble _ _ hlen']
  rw [zip_set, List.map_set]
  set A := (lon.zip lat).map fun q => sph2cart q.1 q.2 with hA
  have hiA : i < A.length := by
    rw [hA, List.length_map, List.length_zip, hlen, min_self]
    exact hlen ▸ hi
  have hipts : i < (lon.zip lat).length := by
    rw [List.length_zip, hlen, min_self]
    exact hlen ▸ hi
  -- the replaced cartesian row is the negation of the original row
  have hrow : sph2cart p.1 p.2 = negV (A.get ⟨i, hiA⟩) := by
    have hAg : A.get ⟨i, hiA⟩ = sph2cart (lon.getD i 0) (lat.getD i 0) := by
      simp only [hA, List.get_eq_getElem, List.getElem_map, List.getElem_zip]
      rw [List.getD_eq_getElem lon 0 hi, List.getD_eq_getElem lat 0 (hlen ▸ hi)]
    obtain ⟨heq, hc⟩ := antipode_spec (lon.getD i 0) (lat.getD i 0)
    have h2 := hc p hp
    rw [hAg, h2]
    rfl
  rw [hrow, covMatrix_doubled, covMatrix_doubled]
  ext a b
  simp only [Matrix.of_apply, List.length_set]
  congr 1
  congr 1
  exact sum_map_set (fun v => comp3 v a * comp3 v b) A i (negV (A.get ⟨i, hiA⟩))
    hiA (by simp only [comp3_negV]; ring)

/-- C8 witness for `c8_cov_eig_axial`: a single measurement at the origin
of the net, its antipode being `(π, 0)`, with `eigh` the identity. -/
theorem c8_witness :
    antipode ([(0 : ℝ)].getD 0 0) ([(0 : ℝ)].getD 0 0) = some (Real.pi, 0) ∧
      cov_eig (fun m : Matrix (Fin 3) (Fin 3) ℝ => m)
          ([(0 : ℝ)].set 0 (Real.pi, (0 : ℝ)).1)
          ([(0 : ℝ)].set 0 (Real.pi, (0 : ℝ)).2) true =
        cov_eig (fun m : Matrix (Fin 3) (Fin 3) ℝ => m) [0] [0] true := by
  have hp : antipode (0 : ℝ) 0 = some (Real.pi, 0) := by
    obtain ⟨heq, _⟩ := antipode_spec 0 0
    rw [heq]
    simp only [sph2cart_center]
    have h1 : arctan2 (-0) (-1) = Real.pi := by
      unfold arctan2
      rw [show (⟨-1, -0⟩ : ℂ) = -1 by apply Complex.ext <;> simp]
      exact Complex.arg_neg_one
    rw [h1]
    norm_num
  constructor
  · simpa using hp
  · exact c8_cov_eig_axial (fun m => m) [0] [0] 0 (Real.pi, 0) rfl
      (by norm_num) (by simpa using hp)

/-- C5: for `N ≥ 2` measurements, the statistics triple returned by
`fisher_stats` is exactly the claim's closed form: resultant length
`R/N` of the mean vector (`R` the Euclidean norm of the vector sum of the
unit vectors, which the first conjunct shows are unit), the confidence
cone half-angle `arccos(1 - ((N-R)/R)·((1/p)^(1/(N-1)) - 1))` with
`p = (100-conf)/100`, and `κ = (N-1)/(N-R)`. -/
theorem c5_fisher_stats_formula (lons lats : List ℝ) (conf : ℝ)
    (hlen : lons.length = lats.length) (hN : 2 ≤ lons.length) :
    (∀ v ∈ (lons.zip lats).map fun q => sph2cart q.1 q.2,
        v.1 ^ 2 + v.2.1 ^ 2 + v.2.2 ^ 2 = 1) ∧
      (fisher_stats lons lats conf).2 =
        some (fisherSpecStats lons lats conf) := by
  constructor
  · intro v hv
    rw [List.mem_map] at hv
    obtain ⟨q, _, hq⟩ := hv
    rw [← hq]
    exact sph2cart_norm q.1 q.2
  · unfold fisher_stats fisherSpecStats
    set vs := (lons.zip lats).map fun q => sph2cart q.1 q.2 with hvs
    have hnum : vs.length = lons.length := by
      rw [hvs, List.length_map, List.length_zip, ← hlen, min_self]
    have h1 : 1 < vs.length := by
      rw [hnum]
      omega
    simp only [if_pos h1]
    set sx := (vs.map fun v => v.1).sum with hsx
    set sy := (vs.map fun v => v.2.1).sum with hsy
    set sz := (vs.map fun v => v.2.2).sum with hsz
    have hR : ‖((WithLp.equiv 2 (Fin 3 → ℝ)).symm ![sx, sy, sz] :
        EuclideanSpace ℝ (Fin 3))‖ =
        Real.sqrt (sx ^ 2 + sy ^ 2 + sz ^ 2) := by
      rw [EuclideanSpace.norm_eq]
      congr 1
      rw [Fin.sum_univ_three]
      simp only [WithLp.equiv_symm_pi_apply, Matrix.cons_val_zero,
        Matrix.cons_val_one, Matrix.head_cons, Real.norm_eq_abs, sq_abs]
      rfl
    have hNpos : (0 : ℝ) < (lons.length : ℝ) := by
      have : 0 < lons.length := by omega
      exact_mod_cast this
    rw [hR, hnum]
    have ha : Real.sqrt ((sx / (lons.length : ℝ)) ^ 2 +
        (sy / (lons.length : ℝ)) ^ 2 + (sz / (lons.length : ℝ)) ^ 2) =
        Real.sqrt (sx ^ 2 + sy ^ 2 + sz ^ 2) / (lons.length : ℝ) := by
      rw [show (sx / (lons.length : ℝ)) ^ 2 + (sy / (lons.length : ℝ)) ^ 2 +
          (sz / (lons.length : ℝ)) ^ 2 =
          (sx ^ 2 + sy ^ 2 + sz ^ 2) / ((lons.length : ℝ)) ^ 2 from by ring,
        Real.sqrt_div' _ (by positivity), Real.sqrt_sq hNpos.le]
    rw [ha]

/-- C5 witness for `c5_fisher_stats_formula`: two identical measurements
at the origin of the net. -/
theorem c5_witness :
    ([(0 : ℝ), 0].length = [(0 : ℝ), 0].length ∧ 2 ≤ [(0 : ℝ), 0].length) ∧
      (fisher_stats [0, 0] [0, 0] 95).2 =
        some (fisherSpecStats [0, 0] [0, 0] 95) :=
  ⟨⟨rfl, by norm_num⟩,
    (c5_fisher_stats_formula [0, 0] [0, 0] 95 rfl (by norm_num)).2⟩

theorem cos_pi_div_eighteen_lt : Real.cos (Real.pi / 18) < 0.99 := by
  have h1 : (3.141592 : ℝ) < Real.pi := Real.pi_gt_d6
  have h2 : Real.pi < 3.141593 := Real.pi_lt_d6
  have hq0 : (0 : ℝ) ≤ Real.pi / 18 := by positivity
  have hx : |Real.pi / 18| ≤ 1 := by
    rw [abs_of_nonneg hq0]
    linarith
  have hb := Real.cos_bound hx
  rw [abs_of_nonneg hq0] at hb
  have hb2 := (abs_le.mp hb).2
  have hq1 : (0.174532 : ℝ) < Real.pi / 18 := by linarith
  have hq2 : Real.pi / 18 < 0.174533 := by linarith
  have hq3 : (0.0304614 : ℝ) < (Real.pi / 18) ^ 2 := by nlinarith
  have hq4 : (Real.pi / 18) ^ 2 < 0.0304618 := by nlinarith
  have hq5 : (Real.pi / 18) ^ 4 < 0.000928 := by nlinarith
  nlinarith [hb2]

theorem sin_grid_le (k : ℕ) (hk : k < 10) :
    Real.sin ((k : ℝ) * (Real.pi / 9)) ≤ Real.cos (Real.pi / 18) := by
  have hpi := Real.pi_pos
  have hk9 : (k : ℝ) ≤ 9 := by exact_mod_cast Nat.le_of_lt_succ hk
  have hk0 : (0 : ℝ) ≤ (k : ℝ) := Nat.cast_nonneg k
  have hcos : Real.cos (Real.pi / 18) = Real.sin (4 * (Real.pi / 9)) := by
    rw [show (4 : ℝ) * (Real.pi / 9) = Real.pi / 2 - Real.pi / 18 by ring,
      Real.sin_pi_div_two_sub]
  rw [hcos]
  have hmono := Real.strictMonoOn_sin.monotoneOn
  by_cases hk4 : k ≤ 4
  · have hk4' : (k : ℝ) ≤ 4 := by exact_mod_cast hk4
    exact hmono ⟨by nlinarith, by nlinarith⟩ ⟨by nlinarith, by nlinarith⟩
      (by nlinarith)
  · push_neg at hk4
    have hk5 : (5 : ℝ) ≤ (k : ℝ) := by exact_mod_cast hk4
    rw [show (k : ℝ) * (Real.pi / 9) =
        Real.pi - (9 - (k : ℝ)) * (Real.pi / 9) by ring, Real.sin_pi_sub]
    exact hmono ⟨by nlinarith, by nlinarith⟩ ⟨by nlinarith, by nlinarith⟩
      (by nlinarith)

/-- Every coordinate of the 10-point counter grid is at least 10 degrees
away from 0, so its cosine stays below the Schmidt counting threshold. -/
theorem abs_cos_linspace10 {x : ℝ} (hx : x ∈ linspace 10) :
    |Real.cos x| < 0.99 := by
  unfold linspace at hx
  rw [List.mem_map] at hx
  obtain ⟨k, hk, hxe⟩ := hx
  rw [List.mem_range] at hk
  have h9 : ((10 : ℕ) : ℝ) - 1 = 9 := by norm_num
  rw [h9] at hxe
  have hcos : Real.cos x = Real.sin ((k : ℝ) * (Real.pi / 9)) := by
    rw [← hxe, show -(Real.pi / 2) + (k : ℝ) * (Real.pi / 9) =
      -(Real.pi / 2 - (k : ℝ) * (Real.pi / 9)) by ring, Real.cos_neg,
      Real.cos_pi_div_two_sub]
  have hk9 : (k : ℝ) ≤ 9 := by exact_mod_cast Nat.le_of_lt_succ hk
  have hnn : 0 ≤ Real.sin ((k : ℝ) * (Real.pi / 9)) := by
    apply Real.sin_nonneg_of_nonneg_of_le_pi
    · positivity
    · nlinarith [Real.pi_pos]
  rw [hcos, abs_of_nonneg hnn]
  exact lt_of_le_of_lt (sin_grid_le k hk) cos_pi_div_eighteen_lt

theorem length_gridPairs (xs ys : List ℝ) :
    (xs.flatMap fun lo => ys.map fun la => (lo, la)).length =
      xs.length * ys.length := by
  induction xs with
  | nil => simp
  | cons x xs ih =>
    simp only [List.flatMap_cons, List.length_append, List.length_map,
      List.length_cons, ih]
    ring

theorem linspace_length (n : ℕ) : (linspace n).length = n := by
  simp [linspace]

/-- C4 evaluation: the 10×10 Schmidt density grid of the single pole of
strike 0 / dip 0 is identically zero — no counter station lies within the
1% counting circle of the pole at (0, 0). -/
theorem c4_schmidt_grid_zero :
    density_grid [0] [0] Method.schmidt 3 (10, 10) none =
      List.replicate 100 (0 : ℝ) := by
  unfold density_grid
  rw [if_neg (by simp)]
  unfold count_points
  simp only [kernelOf, Option.map_none', List.map_map]
  rw [List.eq_replicate_iff]
  constructor
  · rw [List.length_map, length_gridPairs, linspace_length]
  · intro b hb
    rw [List.mem_map] at hb
    obtain ⟨c, hc, hbc⟩ := hb
    rw [List.mem_flatMap] at hc
    obtain ⟨lo, hlo, hc2⟩ := hc
    rw [List.mem_map] at hc2
    obtain ⟨la, hla, hcla⟩ := hc2
    rw [← hbc, ← hcla]
    have hv : |dot3 (sph2cart lo la) (sph2cart 0 0)| < 0.99 := by
      rw [sph2cart_center]
      have hd : dot3 (sph2cart lo la) (1, 0, 0) =
          Real.cos la * Real.cos lo := by
        simp [dot3, sph2cart]
      rw [hd, abs_mul]
      calc |Real.cos la| * |Real.cos lo| ≤ 1 * |Real.cos lo| :=
            mul_le_mul_of_nonneg_right (Real.abs_cos_le_one la) (abs_nonneg _)
        _ = |Real.cos lo| := one_mul _
        _ < 0.99 := abs_cos_linspace10 hlo
    have hcond : ¬ (1 - |dot3 (sph2cart lo la) (sph2cart 0 0)| ≤ 0.01) := by
      push_neg
      linarith
    simp only [Function.comp_apply, List.zip_cons_cons, List.zip_nil_right,
      List.map_cons, List.map_nil, schmidt_count, List.length_cons,
      List.length_nil, if_neg hcond, List.sum_cons, List.sum_nil]
    norm_num

/-- C4 counterexample: for `density_grid(0, 0, gridsize=(10,10),
method='schmidt')` the pole of strike 0 / dip 0 sits at (lon, lat) =
(0, 0), yet the grid cell nearest that pole (ravel index 44, the station
at (-10°, -10°)) holds density 0, not the full 1%-count value 100: every
station is ≥ arccos(cos²10°) ≈ 14.1° from the pole, outside the ≈ 8.1°
counting circle. -/
theorem c4_counterexample :
    pole1 0 0 = some (0, 0) ∧
      (density_grid [0] [0] Method.schmidt 3 (10, 10) none).getD 44 1 = 0 ∧
      (0 : ℝ) ≠ 100 := by
  refine ⟨pole1_zero_dip 0, ?_, by norm_num⟩
  rw [c4_schmidt_grid_zero]
  rw [List.getD_eq_getElem _ _ (by simp)]
  simp

/-- C4 (amended): `density_grid(0, 0, gridsize=(10,10), method='schmidt')`
returns a 10×10 grid that is identically zero — no counter station of the
10×10 grid lies within the Schmidt 1% counting circle (angular radius
arccos 0.99 ≈ 8.1°) of the single pole at (0, 0), the nearest stations
being ≈ 14.1° away — rather than a grid with the full density value in
the cell nearest the pole. -/
theorem c4_schmidt_grid :
    pole1 0 0 = some (0, 0) ∧
      density_grid [0] [0] Method.schmidt 3 (10, 10) none =
        List.replicate 100 (0 : ℝ) :=
  ⟨pole1_zero_dip 0, c4_schmidt_grid_zero⟩

/-- Every density value returned by `_count_points` is non-negative: the
final clamp rewrites negative totals to zero. -/
theorem count_points_nonneg (lons lats : List ℝ)
    (func : List ℝ → ℝ → List ℝ × ℝ) (sigma : ℝ) (gridsize : ℕ × ℕ)
    (weights : Option (List ℝ)) :
    ∀ z ∈ (count_points lons lats func sigma gridsize weights).2, 0 ≤ z := by
  intro z hz
  unfold count_points at hz
  simp only [List.mem_map] at hz
  obtain ⟨t, _, ht⟩ := hz
  rw [← ht]
  by_cases h : t < 0
  · rw [if_pos h]
  · rw [if_neg h]
    exact le_of_not_lt h

theorem tiny_pos : 0 < tiny := by
  unfold tiny
  positivity

/-- C9: every density value in a `density_grid` result is non-negative
(negative raw densities are clamped to zero), and for every method other
than `schmidt` and `kamb` every value is strictly positive (exact zeros
are bumped to the smallest positive float). -/
theorem c9_density_grid_nonneg (lons lats : List ℝ) (method : Method)
    (sigma : ℝ) (gridsize : ℕ × ℕ) (weights : Option (List ℝ)) :
    ∀ z ∈ density_grid lons lats method sigma gridsize weights,
      0 ≤ z ∧ (method ≠ Method.schmidt → method ≠ Method.kamb → 0 < z) := by
  intro z hz
  unfold density_grid at hz
  by_cases hm : method ≠ Method.schmidt ∧ method ≠ Method.kamb
  · rw [if_pos hm] at hz
    rw [List.mem_map] at hz
    obtain ⟨v, hv, hzv⟩ := hz
    have hv0 : 0 ≤ v := count_points_nonneg lons lats _ sigma gridsize weights v hv
    rw [← hzv]
    by_cases hveq : v = 0
    · rw [if_pos hveq]
      exact ⟨tiny_pos.le, fun _ _ => tiny_pos⟩
    · rw [if_neg hveq]
      have hpos : 0 < v := lt_of_le_of_ne hv0 (Ne.symm hveq)
      exact ⟨hpos.le, fun _ _ => hpos⟩
  · rw [if_neg hm] at hz
    exact ⟨count_points_nonneg lons lats _ sigma gridsize weights z hz,
      fun hs hk => absurd ⟨hs, hk⟩ hm⟩

theorem linspace_one : linspace 1 = [-(Real.pi / 2)] := by
  unfold linspace
  rw [show (1 : ℕ) = Nat.succ 0 from rfl, List.range_succ, List.range_zero]
  norm_num

/-- A concrete smoothed-method grid: with no input points and a 1×1 grid,
the (empty-kernel) density is zero at the single station and is bumped
to `tiny`. -/
theorem density_grid_empty_exp :
    density_grid [] [] Method.exponential_kamb 3 (1, 1) none = [tiny] := by
  have hcond : Method.exponential_kamb ≠ Method.schmidt ∧
      Method.exponential_kamb ≠ Method.kamb := by
    refine ⟨fun h => ?_, fun h => ?_⟩ <;> cases h
  unfold density_grid
  rw [if_pos hcond]
  unfold count_points
  simp only [kernelOf, Option.map_none', linspace_one, List.flatMap_cons,
    List.flatMap_nil, List.map_cons, List.map_nil, List.zip_nil_left,
    List.append_nil]
  unfold exponential_kamb
  norm_num

/-- C9 witness for `c9_density_grid_nonneg`, at the concrete grid of
`density_grid_empty_exp`. -/
theorem c9_witness :
    tiny ∈ density_grid [] [] Method.exponential_kamb 3 (1, 1) none ∧
      (0 ≤ tiny ∧ (Method.exponential_kamb ≠ Method.schmidt →
        Method.exponential_kamb ≠ Method.kamb → 0 < tiny)) := by
  have hmem : tiny ∈ density_grid [] [] Method.exponential_kamb 3 (1, 1) none := by
    rw [density_grid_empty_exp]
    exact List.mem_singleton_self tiny
  exact ⟨hmem,
    c9_density_grid_nonneg [] [] Method.exponential_kamb 3 (1, 1) none tiny hmem⟩

end Mplstereonet
